import Mathlib

set_option maxHeartbeats 1000000

/-! Verification development for the squareword generator
(`squareword_gen_rs/src/main.rs`): a shallow embedding of its trie, its
constrained word enumerator (`WordsFromValidCharsIter`), and its vocabulary
filter (`get_working_words`), together with proofs and refutations of the
specified properties. -/

/-- A node of the vocabulary trie (Rust `struct TrieNode`): a terminal flag
`is_last` and a character-keyed collection of child nodes. The Rust code
stores children in a `HashMap<char, TrieNode>`; only keyed lookup and keyed
insertion are ever used, so children are embedded as an association list
with unique keys. -/
inductive TrieNode : Type where
  | mk : Bool → List (Char × TrieNode) → TrieNode

/-- The `is_last` field of a trie node. -/
def TrieNode.is_last : TrieNode → Bool
  | .mk b _ => b

/-- The `children` field of a trie node. -/
def TrieNode.children : TrieNode → List (Char × TrieNode)
  | .mk _ l => l

/-- Keyed lookup in a child list (Rust `HashMap::get`). -/
def getChild : List (Char × TrieNode) → Char → Option TrieNode
  | [], _ => none
  | (k, n) :: rest, c => if k = c then some n else getChild rest c

/-- Keyed update in a child list: replace the entry for `c` if present,
otherwise add one (the effect of Rust `HashMap::entry(c).or_default()`
followed by mutation of the returned node). -/
def setChild : List (Char × TrieNode) → Char → TrieNode → List (Char × TrieNode)
  | [], c, t => [(c, t)]
  | (k, n) :: rest, c, t => if k = c then (k, t) :: rest else (k, n) :: setChild rest c t

/-- Rust `Trie::add_word`: walk the word character by character, creating
missing nodes via `entry(c).or_default()`, and mark the final node terminal.
No validation of any kind is performed on the word. -/
def addWordNode : TrieNode → List Char → TrieNode
  | node, [] => TrieNode.mk true node.children
  | node, c :: cs =>
    TrieNode.mk node.is_last
      (setChild node.children c
        (addWordNode ((getChild node.children c).getD (TrieNode.mk false [])) cs))

/-- Rust `Trie::new()`: the root is a default node (non-terminal, no children). -/
def Trie.new : TrieNode := TrieNode.mk false []

/-- Rust `Trie::add_words`: insert each word of the list in order. -/
def addWords (t : TrieNode) (ws : List (List Char)) : TrieNode :=
  ws.foldl addWordNode t

/-- Walk a word character by character from a node, following `children.get`;
`none` models diving into a dead branch. -/
def findNode : TrieNode → List Char → Option TrieNode
  | node, [] => some node
  | node, c :: cs =>
    match getChild node.children c with
    | none => none
    | some child => findNode child cs

/-- A word is a member of the (sub)trie at `t` iff walking it from `t` stays
inside the trie and ends at a node whose terminal flag is set. -/
def containsWord (t : TrieNode) (w : List Char) : Bool :=
  match findNode t w with
  | some n => n.is_last
  | none => false

/-- Rust `WordsFromValidCharsIter` run to exhaustion, expressed relative to
its trie node: the first component is the list of suffixes the iterator
yields (in yield order), the second component is `true` iff fully consuming
the iterator panics.

`next()` first checks `is_last` (yielding one suffix — the bare prefix
character — and stopping, regardless of remaining constraint entries); then
it lazily builds one child iterator per character of the first constraint
entry that has a matching trie child (`make_child_iters`), and flattens the
child iterators in entry order, prefixing every produced suffix with the
child's character. When the node is not terminal and the constraint slice is
empty, `make_child_iters` evaluates `&self.valid_next_row_chars[0]` on an
empty slice and panics: that is the `true` flag. A panic inside a child cuts
the yielded sequence short at the items already produced, so items of
children after the panicking position are dropped. -/
def enumWords : TrieNode → List (List Char) → List (List Char) × Bool
  | node, cs =>
    if node.is_last then ([[]], false)
    else
      match cs with
      | [] => ([], true)
      | c0 :: rest =>
        c0.foldr
          (fun c acc =>
            match getChild node.children c with
            | none => acc
            | some child =>
              let r := enumWords child rest
              if r.2 then (r.1.map (fun s => c :: s), true)
              else (r.1.map (fun s => c :: s) ++ acc.1, acc.2))
          ([], false)

/-- The inner loop of `enumWords` for a non-terminal node: the combined
yield sequence and panic flag of the child iterators for the characters of
`clist` (a suffix of the first constraint entry), with remaining constraint
entries `rest`. -/
def goChildren (node : TrieNode) (rest : List (List Char)) (clist : List Char) :
    List (List Char) × Bool :=
  clist.foldr
    (fun c acc =>
      match getChild node.children c with
      | none => acc
      | some child =>
        let r := enumWords child rest
        if r.2 then (r.1.map (fun s => c :: s), true)
        else (r.1.map (fun s => c :: s) ++ acc.1, acc.2))
    ([], false)

/-- Pointwise constraint satisfaction: position `k` of `w` (for every
position `w` has) carries a character of the `k`-th constraint entry. In
particular `w` is no longer than the constraint list. -/
def satSets : List (List Char) → List Char → Bool
  | _, [] => true
  | [], _ :: _ => false
  | e :: cs, c :: w => e.contains c && satSets cs w

/-- `w` walks from `node` to a terminal node and no strictly shorter
non-empty walk along `w` ends at a terminal node (the node of `w` itself may
be terminal; every proper ancestor on the walk is not). This is exactly the
shape of path the iterator follows: it stops at the first terminal node. -/
def minimalWord : TrieNode → List Char → Bool
  | node, [] => node.is_last
  | node, c :: w =>
    !node.is_last &&
      (match getChild node.children c with
       | none => false
       | some child => minimalWord child w)

/-- No strict ancestor along the walk of `w` from `node` is terminal. -/
def noEarlyWord : TrieNode → List Char → Bool
  | _, [] => true
  | node, c :: w =>
    !node.is_last &&
      (match getChild node.children c with
       | none => true
       | some child => noEarlyWord child w)

/-- The walk of `w` from `node` stays inside the trie and ends at a
non-terminal node (a dead end for the iterator once constraints run out). -/
def stuckAt (node : TrieNode) (w : List Char) : Bool :=
  match findNode node w with
  | some n => !n.is_last
  | none => false

/-- Every walk from `node` that follows the constraint entries and is not cut
short by a terminal node either leaves the trie or ends at a terminal node by
the time the constraint entries are exhausted. This is precisely the condition
under which the iterator never indexes an empty constraint slice. -/
def allFullPathsTerminal : TrieNode → List (List Char) → Bool
  | node, [] => node.is_last
  | node, e :: rest =>
    node.is_last ||
      e.all (fun c =>
        match getChild node.children c with
        | none => true
        | some child => allFullPathsTerminal child rest)

/-- The Rust `HashSet` built by `get_working_words` from the dictionary file:
the dictionary words, kept only when their length equals `word_len`. -/
def scrabbleSet (scrabbleWords : List String) (word_len : Nat) : List String :=
  scrabbleWords.filter (fun w => w.length == word_len)

/-- The selection loop of `get_working_words`: walk the frequency-ordered
words, keep those in the dictionary set, and stop as soon as the number kept
equals `top_n` (the check runs after each push, so `top_n = 0` never stops). -/
def pickWords (sset : List String) (top_n : Nat) : List String → List String → List String
  | [], acc => acc
  | w :: rest, acc =>
    if sset.contains w then
      (if (acc ++ [w]).length == top_n then acc ++ [w]
       else pickWords sset top_n rest (acc ++ [w]))
    else pickWords sset top_n rest acc

/-- Rust `get_working_words`, with file reading and CSV splitting (external
collaborators) already applied, so the inputs are the frequency-ordered word
list and the dictionary word list. Returns `none` when the function panics:
after selection it unconditionally slices `&working_words[0..10]` and
`&working_words[working_words.len()-10..]` for its summary logging, which
panics whenever fewer than 10 words were selected. -/
def getWorkingWords (freqWords scrabbleWords : List String) (top_n word_len : Nat) :
    Option (List String) :=
  let selected := pickWords (scrabbleSet scrabbleWords word_len) top_n freqWords []
  if selected.length < 10 then none else some selected

/-- The closed form of the selection loop: the frequency words that are in
the length-filtered dictionary set, truncated to `top_n` — except that
`top_n = 0` does not truncate at all. -/
def selectedSpec (freqWords scrabbleWords : List String) (top_n word_len : Nat) :
    List String :=
  let kept := freqWords.filter (fun w => (scrabbleSet scrabbleWords word_len).contains w)
  if top_n == 0 then kept else kept.take top_n

theorem TrieNode.is_last_mk (b : Bool) (l : List (Char × TrieNode)) :
    (TrieNode.mk b l).is_last = b := rfl

theorem TrieNode.children_mk (b : Bool) (l : List (Char × TrieNode)) :
    (TrieNode.mk b l).children = l := rfl

theorem addWordNode_cons (t : TrieNode) (c : Char) (cs : List Char) :
    addWordNode t (c :: cs) =
      TrieNode.mk t.is_last
        (setChild t.children c
          (addWordNode ((getChild t.children c).getD (TrieNode.mk false [])) cs)) := rfl

theorem enumWords_eq_last (node : TrieNode) (cs : List (List Char)) (h : node.is_last = true) :
    enumWords node cs = ([[]], false) := by
  cases cs <;> simp [enumWords, h]

theorem enumWords_eq_nil (node : TrieNode) (h : node.is_last = false) :
    enumWords node [] = ([], true) := by
  simp [enumWords, h]

theorem enumWords_eq_cons (node : TrieNode) (c0 : List Char) (rest : List (List Char))
    (h : node.is_last = false) :
    enumWords node (c0 :: rest) = goChildren node rest c0 := by
  simp [enumWords, goChildren, h]

theorem goChildren_nil (node : TrieNode) (rest : List (List Char)) :
    goChildren node rest [] = ([], false) := rfl

theorem goChildren_cons (node : TrieNode) (rest : List (List Char)) (c : Char)
    (cmore : List Char) :
    goChildren node rest (c :: cmore) =
      match getChild node.children c with
      | none => goChildren node rest cmore
      | some child =>
        if (enumWords child rest).2 then ((enumWords child rest).1.map (fun s => c :: s), true)
        else ((enumWords child rest).1.map (fun s => c :: s) ++ (goChildren node rest cmore).1,
              (goChildren node rest cmore).2) := rfl

theorem getChild_setChild_self (l : List (Char × TrieNode)) (c : Char) (t : TrieNode) :
    getChild (setChild l c t) c = some t := by
  induction l with
  | nil => simp [setChild, getChild]
  | cons p rest ih =>
    obtain ⟨k, n⟩ := p
    by_cases hk : k = c
    · simp [setChild, getChild, hk]
    · simp [setChild, getChild, hk, ih]

theorem getChild_setChild_ne (l : List (Char × TrieNode)) (c d : Char) (t : TrieNode)
    (h : c ≠ d) : getChild (setChild l c t) d = getChild l d := by
  induction l with
  | nil => simp [setChild, getChild, h]
  | cons p rest ih =>
    obtain ⟨k, n⟩ := p
    by_cases hk : k = c
    · subst hk; simp [setChild, getChild, h]
    · simp [setChild, getChild, hk, ih]

theorem containsWord_nil_eq (node : TrieNode) : containsWord node [] = node.is_last := rfl

theorem containsWord_cons_eq (node : TrieNode) (c : Char) (w : List Char) :
    containsWord node (c :: w) =
      match getChild node.children c with
      | none => false
      | some child => containsWord child w := by
  cases hc : getChild node.children c <;> simp [containsWord, findNode, hc]

theorem containsWord_empty (w : List Char) :
    containsWord (TrieNode.mk false []) w = false := by
  cases w <;> rfl

theorem containsWord_addWordNode (w : List Char) :
    ∀ (t : TrieNode) (s : List Char),
      containsWord (addWordNode t w) s = (decide (s = w) || containsWord t s) := by
  induction w with
  | nil =>
    intro t s
    cases s with
    | nil => simp [addWordNode, containsWord_nil_eq, TrieNode.is_last]
    | cons d ds =>
      rw [containsWord_cons_eq, containsWord_cons_eq]
      simp [addWordNode, TrieNode.children]
  | cons c cs ih =>
    intro t s
    cases s with
    | nil => simp [addWordNode, containsWord_nil_eq, TrieNode.is_last]
    | cons d ds =>
      rw [containsWord_cons_eq, containsWord_cons_eq, addWordNode_cons]
      by_cases hdc : c = d
      · subst hdc
        simp only [TrieNode.children_mk, getChild_setChild_self]
        rw [ih]
        cases hg : getChild t.children c with
        | none => simp [hg, containsWord_empty]
        | some n => simp [hg]
      · simp only [TrieNode.children_mk, getChild_setChild_ne _ _ _ _ hdc]
        have : ¬(d :: ds = c :: cs) := by
          intro hcon
          exact hdc (by injection hcon with h1 _; exact h1.symm)
        simp [this]

theorem containsWord_addWords (ws : List (List Char)) :
    ∀ (t : TrieNode) (s : List Char),
      containsWord (addWords t ws) s = (decide (s ∈ ws) || containsWord t s) := by
  induction ws with
  | nil => intro t s; simp [addWords]
  | cons w ws ih =>
    intro t s
    have h1 : addWords t (w :: ws) = addWords (addWordNode t w) ws := rfl
    rw [h1, ih, containsWord_addWordNode]
    by_cases h2 : s = w <;> by_cases h3 : s ∈ ws <;> simp [h2, h3]

theorem containsWord_trie_of_list (ws : List (List Char)) (s : List Char) :
    containsWord (addWords Trie.new ws) s = decide (s ∈ ws) := by
  rw [containsWord_addWords]
  simp [Trie.new, containsWord_empty]

theorem mem_goChildren (node : TrieNode) (rest : List (List Char)) :
    ∀ (clist : List Char) (w : List Char), w ∈ (goChildren node rest clist).1 →
      ∃ c child w2, w = c :: w2 ∧ c ∈ clist ∧ getChild node.children c = some child ∧
        w2 ∈ (enumWords child rest).1 := by
  intro clist
  induction clist with
  | nil => intro w hw; simp [goChildren_nil] at hw
  | cons c cmore ih =>
    intro w hw
    rw [goChildren_cons] at hw
    cases hc : getChild node.children c with
    | none =>
      simp only [hc] at hw
      obtain ⟨c2, child, w2, h1, h2, h3, h4⟩ := ih w hw
      exact ⟨c2, child, w2, h1, List.mem_cons_of_mem _ h2, h3, h4⟩
    | some child =>
      simp only [hc] at hw
      by_cases hp : (enumWords child rest).2 = true
      · simp only [hp, if_true] at hw
        obtain ⟨w2, hw2, rfl⟩ := List.mem_map.mp hw
        exact ⟨c, child, w2, rfl, List.mem_cons_self _ _, hc, hw2⟩
      · have hp2 : (enumWords child rest).2 = false := by simpa using hp
        simp only [hp2, Bool.false_eq_true, if_false, List.mem_append] at hw
        rcases hw with hw | hw
        · obtain ⟨w2, hw2, rfl⟩ := List.mem_map.mp hw
          exact ⟨c, child, w2, rfl, List.mem_cons_self _ _, hc, hw2⟩
        · obtain ⟨c2, child2, w2, h1, h2, h3, h4⟩ := ih w hw
          exact ⟨c2, child2, w2, h1, List.mem_cons_of_mem _ h2, h3, h4⟩

theorem enumWords_sound_aux (cs : List (List Char)) :
    ∀ (node : TrieNode) (w : List Char), w ∈ (enumWords node cs).1 →
      minimalWord node w = true ∧ satSets cs w = true := by
  induction cs with
  | nil =>
    intro node w hw
    by_cases hl : node.is_last = true
    · rw [enumWords_eq_last _ _ hl] at hw
      simp only [List.mem_singleton] at hw
      subst hw
      simp [minimalWord, hl, satSets]
    · rw [enumWords_eq_nil _ (by simpa using hl)] at hw
      simp at hw
  | cons c0 rest ih =>
    intro node w hw
    by_cases hl : node.is_last = true
    · rw [enumWords_eq_last _ _ hl] at hw
      simp only [List.mem_singleton] at hw
      subst hw
      simp [minimalWord, hl, satSets]
    · have hl2 : node.is_last = false := by simpa using hl
      rw [enumWords_eq_cons _ _ _ hl2] at hw
      obtain ⟨c, child, w2, rfl, hcmem, hchild, hw2⟩ := mem_goChildren node rest c0 _ hw
      obtain ⟨hm, hs⟩ := ih child w2 hw2
      constructor
      · simp [minimalWord, hl2, hchild, hm]
      · simp [satSets, hcmem, hs]

theorem satSets_length_le (cs : List (List Char)) :
    ∀ (w : List Char), satSets cs w = true → w.length ≤ cs.length := by
  induction cs with
  | nil =>
    intro w hw
    cases w with
    | nil => simp
    | cons c w2 => simp [satSets] at hw
  | cons e rest ih =>
    intro w hw
    cases w with
    | nil => simp
    | cons c w2 =>
      simp only [satSets, Bool.and_eq_true] at hw
      simpa using Nat.succ_le_succ (ih w2 hw.2)

theorem minimalWord_contains (w : List Char) :
    ∀ (node : TrieNode), minimalWord node w = true → containsWord node w = true := by
  induction w with
  | nil => intro node h; simpa [minimalWord, containsWord_nil_eq] using h
  | cons c w2 ih =>
    intro node h
    simp only [minimalWord, Bool.and_eq_true] at h
    obtain ⟨-, h2⟩ := h
    rw [containsWord_cons_eq]
    cases hc : getChild node.children c with
    | none => simp [hc] at h2
    | some child =>
      simp only [hc] at h2 ⊢
      exact ih child h2

theorem stuckAt_nil (node : TrieNode) : stuckAt node [] = !node.is_last := rfl

theorem stuckAt_cons (node : TrieNode) (c : Char) (w : List Char) :
    stuckAt node (c :: w) =
      match getChild node.children c with
      | none => false
      | some child => stuckAt child w := by
  cases hc : getChild node.children c <;> simp [stuckAt, findNode, hc]

theorem enumWords_flag_eq (cs : List (List Char)) :
    ∀ (node : TrieNode), (enumWords node cs).2 = !(allFullPathsTerminal node cs) := by
  induction cs with
  | nil =>
    intro node
    by_cases hl : node.is_last = true
    · rw [enumWords_eq_last _ _ hl]; simp [allFullPathsTerminal, hl]
    · have hl2 : node.is_last = false := by simpa using hl
      rw [enumWords_eq_nil _ hl2]; simp [allFullPathsTerminal, hl2]
  | cons e rest ih =>
    intro node
    by_cases hl : node.is_last = true
    · rw [enumWords_eq_last _ _ hl]; simp [allFullPathsTerminal, hl]
    · have hl2 : node.is_last = false := by simpa using hl
      rw [enumWords_eq_cons _ _ _ hl2]
      have hgo : ∀ clist : List Char, (goChildren node rest clist).2 =
          !(clist.all (fun c =>
            match getChild node.children c with
            | none => true
            | some child => allFullPathsTerminal child rest)) := by
        intro clist
        induction clist with
        | nil => simp [goChildren_nil]
        | cons c cmore ihc =>
          rw [goChildren_cons]
          cases hc : getChild node.children c with
          | none => simp only [hc, List.all_cons, ihc]; simp
          | some child =>
            simp only [hc]
            by_cases hp : (enumWords child rest).2 = true
            · have hfpt : allFullPathsTerminal child rest = false := by
                have h3 := ih child
                rw [hp] at h3
                simpa using h3.symm
              simp [hp, List.all_cons, hc, hfpt]
            · have hp2 : (enumWords child rest).2 = false := by simpa using hp
              have hfpt : allFullPathsTerminal child rest = true := by
                have h3 := ih child
                rw [hp2] at h3
                simpa using h3.symm
              simp [hp2, List.all_cons, hc, hfpt, ihc]
      rw [hgo e]
      simp [allFullPathsTerminal, hl2]

theorem allFPT_false_exists (cs : List (List Char)) :
    ∀ (node : TrieNode), allFullPathsTerminal node cs = false →
      ∃ w : List Char, w.length = cs.length ∧ satSets cs w = true ∧
        noEarlyWord node w = true ∧ stuckAt node w = true := by
  induction cs with
  | nil =>
    intro node h
    simp only [allFullPathsTerminal] at h
    exact ⟨[], rfl, rfl, rfl, by simp [stuckAt_nil, h]⟩
  | cons e rest ih =>
    intro node h
    simp only [allFullPathsTerminal, Bool.or_eq_false_iff] at h
    obtain ⟨hl, hall⟩ := h
    have hex : ∃ c ∈ e,
        (match getChild node.children c with
         | none => true
         | some child => allFullPathsTerminal child rest) = false := by
      by_contra hcon
      push_neg at hcon
      have hall2 : e.all (fun c =>
          match getChild node.children c with
          | none => true
          | some child => allFullPathsTerminal child rest) = true := by
        rw [List.all_eq_true]
        intro x hx
        have h5 := hcon x hx
        simpa using h5
      rw [hall2] at hall
      exact absurd hall (by simp)
    obtain ⟨c, hcmem, hcf⟩ := hex
    cases hc : getChild node.children c with
    | none => rw [hc] at hcf; simp at hcf
    | some child =>
      rw [hc] at hcf
      obtain ⟨w2, hlen, hsat, hne, hstuck⟩ := ih child hcf
      refine ⟨c :: w2, by simp [hlen], ?_, ?_, ?_⟩
      · simp [satSets, hcmem, hsat]
      · simp [noEarlyWord, hl, hc, hne]
      · rw [stuckAt_cons, hc]; exact hstuck

theorem allFPT_false_of_path (w : List Char) :
    ∀ (cs : List (List Char)) (node : TrieNode), w.length = cs.length →
      satSets cs w = true → noEarlyWord node w = true → stuckAt node w = true →
      allFullPathsTerminal node cs = false := by
  induction w with
  | nil =>
    intro cs node hlen hsat hne hstuck
    cases cs with
    | cons _ _ => simp at hlen
    | nil =>
      rw [stuckAt_nil] at hstuck
      simp only [allFullPathsTerminal]
      simpa using hstuck
  | cons c w2 ih =>
    intro cs node hlen hsat hne hstuck
    cases cs with
    | nil => simp at hlen
    | cons e rest =>
      simp only [satSets, Bool.and_eq_true] at hsat
      simp only [noEarlyWord, Bool.and_eq_true] at hne
      obtain ⟨hcmem, hsat2⟩ := hsat
      obtain ⟨hl, hne2⟩ := hne
      rw [stuckAt_cons] at hstuck
      cases hc : getChild node.children c with
      | none => rw [hc] at hstuck; simp at hstuck
      | some child =>
        simp only [hc] at hstuck hne2
        have hrec := ih rest child (by simpa using hlen) hsat2 hne2 hstuck
        simp only [allFullPathsTerminal, Bool.or_eq_false_iff]
        constructor
        · simpa using hl
        · have hmem : c ∈ e := by simpa using hcmem
          have : ¬(e.all (fun c =>
              match getChild node.children c with
              | none => true
              | some child => allFullPathsTerminal child rest) = true) := by
            intro hall
            rw [List.all_eq_true] at hall
            have h4 := hall c hmem
            simp only [hc] at h4
            rw [hrec] at h4
            exact absurd h4 (by simp)
          simpa using this

theorem goChildren_cons_none (node : TrieNode) (rest : List (List Char)) (c : Char)
    (cmore : List Char) (hc : getChild node.children c = none) :
    goChildren node rest (c :: cmore) = goChildren node rest cmore := by
  rw [goChildren_cons]; simp [hc]

theorem goChildren_cons_panic (node : TrieNode) (rest : List (List Char)) (c : Char)
    (cmore : List Char) (child : TrieNode) (hc : getChild node.children c = some child)
    (hp : (enumWords child rest).2 = true) :
    goChildren node rest (c :: cmore) =
      ((enumWords child rest).1.map (fun s => c :: s), true) := by
  rw [goChildren_cons]; simp [hc, hp]

theorem goChildren_cons_ok (node : TrieNode) (rest : List (List Char)) (c : Char)
    (cmore : List Char) (child : TrieNode) (hc : getChild node.children c = some child)
    (hp : (enumWords child rest).2 = false) :
    goChildren node rest (c :: cmore) =
      ((enumWords child rest).1.map (fun s => c :: s) ++ (goChildren node rest cmore).1,
       (goChildren node rest cmore).2) := by
  rw [goChildren_cons]; simp [hc, hp]

theorem count_map_cons_same (d : Char) (l : List (List Char)) (w : List Char) :
    (l.map (fun s => d :: s)).count (d :: w) = l.count w := by
  induction l with
  | nil => simp
  | cons x l ih =>
    simp only [List.map_cons, List.count_cons, ih]
    by_cases hxw : x = w <;> simp [hxw]

theorem count_map_cons_ne (c d : Char) (l : List (List Char)) (w : List Char)
    (h : c ≠ d) : (l.map (fun s => c :: s)).count (d :: w) = 0 := by
  rw [List.count_eq_zero]
  intro hmem
  obtain ⟨s, -, hs⟩ := List.mem_map.mp hmem
  simp only [List.cons.injEq] at hs
  exact h hs.1

theorem count_aux (cs : List (List Char)) :
    ∀ (node : TrieNode) (w : List Char), (∀ e ∈ cs, e.Nodup) →
      (enumWords node cs).2 = false →
      (enumWords node cs).1.count w =
        (if (minimalWord node w && satSets cs w) = true then 1 else 0) := by
  induction cs with
  | nil =>
    intro node w hnd hflag
    by_cases hl : node.is_last = true
    · rw [enumWords_eq_last _ _ hl]
      cases w with
      | nil => simp [minimalWord, hl, satSets]
      | cons c w2 => simp [minimalWord, hl]
    · have hl2 : node.is_last = false := by simpa using hl
      rw [enumWords_eq_nil _ hl2] at hflag
      simp at hflag
  | cons e rest ih =>
    intro node w hnd hflag
    by_cases hl : node.is_last = true
    · rw [enumWords_eq_last _ _ hl]
      cases w with
      | nil => simp [minimalWord, hl, satSets]
      | cons c w2 => simp [minimalWord, hl]
    · have hl2 : node.is_last = false := by simpa using hl
      rw [enumWords_eq_cons _ _ _ hl2] at hflag ⊢
      have hndrest : ∀ f ∈ rest, f.Nodup := fun f hf => hnd f (List.mem_cons_of_mem _ hf)
      have hnde : e.Nodup := hnd e (List.mem_cons_self _ _)
      have hinner : ∀ clist : List Char, clist.Nodup →
          (goChildren node rest clist).2 = false →
          ∀ (c : Char) (w2 : List Char),
            (goChildren node rest clist).1.count (c :: w2) =
              (if (decide (c ∈ clist) && minimalWord node (c :: w2) && satSets rest w2) = true
               then 1 else 0) := by
        intro clist
        induction clist with
        | nil => intro _ _ c w2; simp [goChildren_nil]
        | cons d dmore ihc =>
          intro hndc hflagc c w2
          have hnd2 : dmore.Nodup := hndc.of_cons
          have hdnotin : d ∉ dmore := by
            rw [List.nodup_cons] at hndc
            exact hndc.1
          cases hc : getChild node.children d with
          | none =>
            rw [goChildren_cons_none _ _ _ _ hc] at hflagc ⊢
            rw [ihc hnd2 hflagc c w2]
            by_cases hcd : c = d
            · subst hcd
              have hmin : minimalWord node (c :: w2) = false := by
                simp [minimalWord, hc]
              simp [hmin]
            · simp [List.mem_cons, hcd]
          | some child =>
            have hp2 : (enumWords child rest).2 = false := by
              by_cases hp : (enumWords child rest).2 = true
              · rw [goChildren_cons_panic _ _ _ _ _ hc hp] at hflagc
                simp at hflagc
              · simpa using hp
            rw [goChildren_cons_ok _ _ _ _ _ hc hp2] at hflagc ⊢
            have hflag3 : (goChildren node rest dmore).2 = false := hflagc
            have hcount2 := ihc hnd2 hflag3 c w2
            by_cases hcd : c = d
            · subst hcd
              have hzero : (goChildren node rest dmore).1.count (c :: w2) = 0 := by
                rw [hcount2]
                simp [hdnotin]
              rw [List.count_append, count_map_cons_same, hzero,
                ih child w2 hndrest hp2]
              have hmin : minimalWord node (c :: w2) =
                  (minimalWord child w2) := by
                simp [minimalWord, hl2, hc]
              rw [hmin]
              simp [List.mem_cons]
            · have hcd2 : d ≠ c := fun h => hcd h.symm
              rw [List.count_append, count_map_cons_ne _ _ _ _ hcd2, hcount2]
              simp [List.mem_cons, hcd]
      cases w with
      | nil =>
        have hzero : (goChildren node rest e).1.count [] = 0 := by
          rw [List.count_eq_zero]
          intro hmem
          obtain ⟨c2, child2, w3, habs, -, -, -⟩ := mem_goChildren node rest e [] hmem
          exact List.noConfusion habs
        rw [hzero]
        simp [minimalWord, hl2]
      | cons c w2 =>
        rw [hinner e hnde hflag c w2]
        have hsat : satSets (e :: rest) (c :: w2) = (e.contains c && satSets rest w2) := rfl
        rw [hsat]
        by_cases hce : c ∈ e <;> by_cases hm : minimalWord node (c :: w2) = true <;>
          by_cases hs : satSets rest w2 = true <;>
          simp [hce, hm, hs]

theorem nodup_aux (cs : List (List Char)) :
    ∀ (node : TrieNode), (∀ e ∈ cs, e.Nodup) → (enumWords node cs).1.Nodup := by
  induction cs with
  | nil =>
    intro node hnd
    by_cases hl : node.is_last = true
    · rw [enumWords_eq_last _ _ hl]; simp
    · rw [enumWords_eq_nil _ (by simpa using hl)]; simp
  | cons e rest ih =>
    intro node hnd
    by_cases hl : node.is_last = true
    · rw [enumWords_eq_last _ _ hl]; simp
    · have hl2 : node.is_last = false := by simpa using hl
      rw [enumWords_eq_cons _ _ _ hl2]
      have hndrest : ∀ f ∈ rest, f.Nodup := fun f hf => hnd f (List.mem_cons_of_mem _ hf)
      have hnde : e.Nodup := hnd e (List.mem_cons_self _ _)
      have hinner : ∀ clist : List Char, clist.Nodup →
          (goChildren node rest clist).1.Nodup := by
        intro clist
        induction clist with
        | nil => intro h0; simp [goChildren_nil]
        | cons d dmore ihc =>
          intro hndc
          have hnd2 : dmore.Nodup := hndc.of_cons
          have hdnotin : d ∉ dmore := (List.nodup_cons.mp hndc).1
          cases hc : getChild node.children d with
          | none => rw [goChildren_cons_none _ _ _ _ hc]; exact ihc hnd2
          | some child =>
            have hmapnd : ((enumWords child rest).1.map (fun s => d :: s)).Nodup :=
              (ih child hndrest).map List.cons_injective
            by_cases hp : (enumWords child rest).2 = true
            · rw [goChildren_cons_panic _ _ _ _ _ hc hp]
              exact hmapnd
            · have hp2 : (enumWords child rest).2 = false := by simpa using hp
              rw [goChildren_cons_ok _ _ _ _ _ hc hp2]
              refine List.Nodup.append hmapnd (ihc hnd2) ?_
              intro a hamem hamem2
              obtain ⟨s, -, hs⟩ := List.mem_map.mp hamem
              obtain ⟨c2, child2, w3, ha2, hc2mem, -, -⟩ :=
                mem_goChildren node rest dmore a hamem2
              rw [← hs] at ha2
              simp only [List.cons.injEq] at ha2
              exact hdnotin (by rw [ha2.1]; exact hc2mem)
      exact hinner e hnde

theorem enum_length_le_vocab_aux (ws : List (List Char)) (cs : List (List Char))
    (hnd : ∀ e ∈ cs, e.Nodup) :
    ((enumWords (addWords Trie.new ws) cs).1).length ≤ ws.length := by
  have hnodup : (enumWords (addWords Trie.new ws) cs).1.Nodup :=
    nodup_aux cs (addWords Trie.new ws) hnd
  have hsub : ∀ w ∈ (enumWords (addWords Trie.new ws) cs).1, w ∈ ws := by
    intro w hw
    have hmin := (enumWords_sound_aux cs (addWords Trie.new ws) w hw).1
    have hcont := minimalWord_contains w (addWords Trie.new ws) hmin
    rw [containsWord_trie_of_list] at hcont
    simpa using hcont
  calc (enumWords (addWords Trie.new ws) cs).1.length
      = (enumWords (addWords Trie.new ws) cs).1.toFinset.card :=
        (List.toFinset_card_of_nodup hnodup).symm
    _ ≤ ws.toFinset.card := by
        apply Finset.card_le_card
        intro x hx
        rw [List.mem_toFinset] at hx ⊢
        exact hsub x hx
    _ ≤ ws.length := List.toFinset_card_le ws

theorem pickWords_cons (sset : List String) (n : Nat) (w : String)
    (rest acc : List String) :
    pickWords sset n (w :: rest) acc =
      if w ∈ sset then
        (if acc.length + 1 = n then acc ++ [w] else pickWords sset n rest (acc ++ [w]))
      else pickWords sset n rest acc := by
  simp [pickWords]

theorem pickWords_zero (sset : List String) :
    ∀ (l acc : List String),
      pickWords sset 0 l acc = acc ++ l.filter (fun w => sset.contains w) := by
  intro l
  induction l with
  | nil => intro acc; simp [pickWords]
  | cons w rest ih =>
    intro acc
    rw [pickWords_cons]
    by_cases hw : w ∈ sset
    · simp [hw, ih, List.filter_cons]
    · simp [hw, ih, List.filter_cons]

theorem pickWords_pos (sset : List String) (n : Nat) :
    ∀ (l acc : List String), acc.length < n →
      pickWords sset n l acc =
        acc ++ (l.filter (fun w => sset.contains w)).take (n - acc.length) := by
  intro l
  induction l with
  | nil => intro acc hacc; simp [pickWords]
  | cons w rest ih =>
    intro acc hacc
    rw [pickWords_cons]
    by_cases hw : w ∈ sset
    · by_cases hstop : acc.length + 1 = n
      · have h1 : n - acc.length = 1 := by omega
        simp [hw, hstop, List.filter_cons, h1]
      · have hlt : (acc ++ [w]).length < n := by
          simp only [List.length_append, List.length_singleton]
          omega
        have h2 : n - acc.length = (n - (acc.length + 1)) + 1 := by omega
        rw [if_pos hw, if_neg hstop, ih (acc ++ [w]) hlt]
        simp [List.filter_cons, hw, h2, List.take_succ_cons, List.append_assoc]
    · rw [if_neg hw, ih acc hacc]
      simp [List.filter_cons, hw]

theorem pickWords_eq_selectedSpec (f s : List String) (n len : Nat) :
    pickWords (scrabbleSet s len) n f [] = selectedSpec f s n len := by
  by_cases hn : n = 0
  · subst hn
    rw [pickWords_zero]
    simp [selectedSpec]
  · have h1 : 0 < n := Nat.pos_of_ne_zero hn
    rw [pickWords_pos _ n f [] (by simpa using h1)]
    simp [selectedSpec, hn]

theorem minimalWord_eq (w : List Char) :
    ∀ (node : TrieNode), minimalWord node w = (noEarlyWord node w && containsWord node w) := by
  induction w with
  | nil => intro node; simp [minimalWord, noEarlyWord, containsWord_nil_eq]
  | cons c w2 ih =>
    intro node
    rw [containsWord_cons_eq]
    cases hc : getChild node.children c with
    | none => simp [minimalWord, noEarlyWord, hc]
    | some child => simp [minimalWord, noEarlyWord, hc, ih child, Bool.and_assoc]

/-- Claim C1 counterexample: completeness fails as stated. In the trie built
from `ab` and `abcd`, the word `abcd` reaches a terminal descendant of the
root and satisfies all four singleton constraint entries, yet the enumerator
never produces it (the iterator stops at the terminal node of `ab`), so it
does not appear exactly once in the produced sequence. -/
theorem enumWords_complete_cex :
    containsWord (addWords Trie.new [['a','b'], ['a','b','c','d']]) ['a','b','c','d'] = true ∧
    satSets [['a'],['b'],['c'],['d']] ['a','b','c','d'] = true ∧
    (enumWords (addWords Trie.new [['a','b'], ['a','b','c','d']])
      [['a'],['b'],['c'],['d']]).1.count ['a','b','c','d'] = 0 := by decide

/-- Claim C1 (amended): for every trie node, constraint list whose entries
are duplicate-free sets, and word `W` of length `L` that reaches a terminal
descendant, satisfies every constraint entry, and none of whose proper
ancestors on its walk is terminal, `W` appears exactly once in the produced
sequence — provided the enumeration does not panic. -/
theorem enumWords_complete (node : TrieNode) (cs : List (List Char))
    (out : List (List Char)) (w : List Char)
    (hout : enumWords node cs = (out, false))
    (hnodup : ∀ e ∈ cs, e.Nodup)
    (hlen : w.length = cs.length)
    (hsat : satSets cs w = true)
    (hterm : containsWord node w = true)
    (hmin : noEarlyWord node w = true) :
    out.count w = 1 := by
  have hflag : (enumWords node cs).2 = false := by rw [hout]
  have h1 := count_aux cs node w hnodup hflag
  rw [hout] at h1
  simpa [minimalWord_eq, hmin, hterm, hsat] using h1

/-- Witness for the amended C1 theorem at the trie built from `ab` with
singleton constraints `a`, `b`: the word `ab` is produced exactly once. -/
theorem enumWords_complete_witness :
    ([['a','b']] : List (List Char)).count ['a','b'] = 1 :=
  enumWords_complete (addWords Trie.new [['a','b']]) [['a'],['b']] [['a','b']] ['a','b']
    (by decide) (by decide) (by decide) (by decide) (by decide) (by decide)

/-- Claim C2 counterexample: `next()` can panic. In the trie built from `ab`
alone, enumerating with the single constraint entry `a` descends to the
non-terminal `a` node with an empty remaining constraint slice, where
`make_child_iters` indexes `valid_next_row_chars[0]` out of bounds. -/
theorem enumWords_total_cex :
    (enumWords (addWords Trie.new [['a','b']]) [['a']]).2 = true := by decide

/-- Claim C2 (amended): the enumeration panics exactly when some walk that
follows the constraint entries, is not cut short by an earlier terminal
node, and stays inside the trie for the full length of the constraint list
ends at a non-terminal node; in every other case `next()` is total (and trie
lookups are total functions by construction). -/
theorem enumWords_panic_characterization (node : TrieNode) (cs : List (List Char)) :
    (enumWords node cs).2 = true ↔
      ∃ w : List Char, w.length = cs.length ∧ satSets cs w = true ∧
        noEarlyWord node w = true ∧ stuckAt node w = true := by
  constructor
  · intro h
    have h2 := enumWords_flag_eq cs node
    rw [h] at h2
    have h3 : allFullPathsTerminal node cs = false := by simpa using h2.symm
    exact allFPT_false_exists cs node h3
  · rintro ⟨w, h1, h2, h3, h4⟩
    have h5 := allFPT_false_of_path w cs node h1 h2 h3 h4
    rw [enumWords_flag_eq cs node, h5]
    rfl

/-- Claim C3 counterexample: with an empty constraint list and a
non-terminal start node (the fresh root), the enumerator does not yield an
empty sequence — it panics (out-of-bounds index in `make_child_iters`). -/
theorem enumWords_empty_constraints_cex :
    (enumWords Trie.new []).2 = true := by decide

/-- Claim C3 (amended): with an empty constraint list the enumerator yields
the empty string exactly once if the start node is terminal; if the start
node is not terminal it panics instead of yielding an empty sequence. -/
theorem enumWords_empty_constraints (node : TrieNode) :
    enumWords node [] = if node.is_last then ([[]], false) else ([], true) := by
  by_cases hl : node.is_last = true
  · rw [enumWords_eq_last _ _ hl]; simp [hl]
  · have hl2 : node.is_last = false := by simpa using hl
    rw [enumWords_eq_nil _ hl2]; simp [hl2]

/-- Claim C4 counterexample: with constraint list of length 4 over the trie
built from `ab` and `abcd`, the enumerator produces `ab`, whose length is 2,
not 4: when an intermediate node on the path is terminal, the iterator stops
there instead of producing a length-`L` string. -/
theorem enumWords_length_cex :
    ['a','b'] ∈ (enumWords (addWords Trie.new [['a','b'],['a','b','c','d']])
      [['a'],['b'],['c'],['d']]).1 ∧
    ¬(['a','b'].length = ([['a'],['b'],['c'],['d']] : List (List Char)).length) := by decide

/-- Claim C4 (amended): every produced string has length at most `L`, and is
itself a word of the trie (it ends at the first terminal node of its walk);
its length equals `L` only when no proper ancestor on its walk is terminal. -/
theorem enumWords_length_le (node : TrieNode) (cs : List (List Char)) (w : List Char)
    (hw : w ∈ (enumWords node cs).1) :
    w.length ≤ cs.length ∧ containsWord node w = true := by
  obtain ⟨hmin, hsat⟩ := enumWords_sound_aux cs node w hw
  exact ⟨satSets_length_le cs w hsat, minimalWord_contains w node hmin⟩

/-- Witness for the amended C4 theorem at the trie built from `ab`. -/
theorem enumWords_length_le_witness :
    (['a','b'].length ≤ ([['a'],['b']] : List (List Char)).length) ∧
      containsWord (addWords Trie.new [['a','b']]) ['a','b'] = true :=
  enumWords_length_le (addWords Trie.new [['a','b']]) [['a'],['b']] ['a','b'] (by decide)

/-- Claim C5 (confirmed): every string the enumerator produces walks from
the given node to a terminal descendant, and its character at each relative
position belongs to the corresponding constraint set entry. -/
theorem enumWords_sound (node : TrieNode) (cs : List (List Char)) (w : List Char)
    (hw : w ∈ (enumWords node cs).1) :
    containsWord node w = true ∧ satSets cs w = true := by
  obtain ⟨hmin, hsat⟩ := enumWords_sound_aux cs node w hw
  exact ⟨minimalWord_contains w node hmin, hsat⟩

/-- Witness for the C5 theorem at the trie built from `ab` and `cb`. -/
theorem enumWords_sound_witness :
    containsWord (addWords Trie.new [['a','b'],['c','b']]) ['c','b'] = true ∧
      satSets [['a','c'],['b']] ['c','b'] = true :=
  enumWords_sound (addWords Trie.new [['a','b'],['c','b']]) [['a','c'],['b']] ['c','b']
    (by decide)

/-- Claim C6 counterexample: with the configured square dimension 5 (the
program default), `add_word` does not refuse a word of length 2 — the word
is inserted (the trie changes and afterwards contains it). -/
theorem add_word_rejects_cex :
    (¬((['a','b'] : List Char).length = 5)) ∧
    containsWord (addWordNode Trie.new ['a','b']) ['a','b'] = true ∧
    containsWord Trie.new ['a','b'] = false := by decide

/-- Claim C6 (amended): `Trie::add_word` performs no length validation at
all: every word, of any length, is inserted unconditionally and the trie
afterwards contains it. Only the upstream vocabulary filter guarantees
uniform word length. -/
theorem add_word_no_validation (t : TrieNode) (w : List Char) :
    containsWord (addWordNode t w) w = true := by
  rw [containsWord_addWordNode]
  simp

/-- Claim C7 counterexample: on inputs whose length-filtered intersection is
the single word `aa` (with `top_n = 5`, `word_len = 2`), `get_working_words`
does not return that one-word list as the claim requires — it panics (its
summary logging slices `[0..10]` of a length-1 vector). -/
theorem getWorkingWords_filter_take_cex :
    getWorkingWords ["aa"] ["aa"] 5 2 = none ∧
    (((["aa"] : List String).filter
        (fun w => (["aa"] : List String).contains w && w.length == 2)).take 5 = ["aa"]) := by
  decide

/-- Claim C7 (amended): provided `top_n ≥ 1` (with `top_n = 0` the stop
check never fires and no truncation happens) and at least 10 words are
selected (otherwise the summary logging panics), `get_working_words` returns
exactly the words that occur in both inputs and have the configured length,
in the frequency list's order, truncated to `top_n` entries. -/
theorem getWorkingWords_filter_take (f s : List String) (n len : Nat)
    (hn : 1 ≤ n)
    (h10 : 10 ≤ ((f.filter (fun w => s.contains w && w.length == len)).take n).length) :
    getWorkingWords f s n len =
      some ((f.filter (fun w => s.contains w && w.length == len)).take n) := by
  have hpred : ∀ w : String,
      ((scrabbleSet s len).contains w) = (s.contains w && w.length == len) := by
    intro w
    by_cases h1 : w ∈ s <;> by_cases h2 : w.length = len <;>
      simp [scrabbleSet, h1, h2]
  have hsel : pickWords (scrabbleSet s len) n f [] =
      (f.filter (fun w => s.contains w && w.length == len)).take n := by
    rw [pickWords_pos _ n f [] (by simpa using Nat.lt_of_lt_of_le Nat.zero_lt_one hn)]
    simp only [List.nil_append, List.length_nil, Nat.sub_zero]
    congr 1
    apply List.filter_congr
    intro w hw2
    rw [hpred w]
  simp only [getWorkingWords]
  rw [hsel, if_neg (by omega)]

/-- Witness for the amended C7 theorem: ten two-letter words appearing in
both inputs, `top_n = 10`. -/
theorem getWorkingWords_filter_take_witness :
    getWorkingWords ["aa","ab","ac","ad","ae","af","ag","ah","ai","aj"]
        ["aa","ab","ac","ad","ae","af","ag","ah","ai","aj"] 10 2 =
      some (((["aa","ab","ac","ad","ae","af","ag","ah","ai","aj"] : List String).filter
        (fun w => (["aa","ab","ac","ad","ae","af","ag","ah","ai","aj"] : List String).contains w
          && w.length == 2)).take 10) :=
  getWorkingWords_filter_take _ _ 10 2 (by decide) (by decide)

/-- Claim C8 (confirmed): a word is reported by terminal-flag traversal from
the root exactly when it was inserted: every inserted word's traversal ends
at a terminal node, and for any other string traversal either leaves the
trie or ends at a non-terminal node. -/
theorem trie_membership_iff (ws : List (List Char)) (s : List Char) :
    containsWord (addWords Trie.new ws) s = true ↔ s ∈ ws := by
  rw [containsWord_trie_of_list]
  simp

/-- Claim C9 counterexample: repeatedly calling `next()` does not always
eventually return `None`. On the trie built from `abc` with constraint list
`[a] [b]`, the enumeration reaches the non-terminal `b` node with
constraints exhausted and panics instead. -/
theorem enumWords_finiteness_cex :
    (enumWords (addWords Trie.new [['a','b','c']]) [['a'],['b']]).2 = true := by decide

/-- Claim C9 (amended): for every trie built from a finite vocabulary and
every constraint list with duplicate-free entries, the number of strings the
enumerator produces is bounded by the vocabulary size (each produced string
is a distinct vocabulary word); `next()` eventually returns `None` in every
non-panicking run. -/
theorem enumWords_count_le_vocab (ws : List (List Char)) (cs : List (List Char))
    (hnd : ∀ e ∈ cs, e.Nodup) :
    ((enumWords (addWords Trie.new ws) cs).1).length ≤ ws.length :=
  enum_length_le_vocab_aux ws cs hnd

/-- Witness for the amended C9 theorem on a two-word vocabulary. -/
theorem enumWords_count_le_vocab_witness :
    ((enumWords (addWords Trie.new [['a','b'],['c','b']]) [['a','c'],['b']]).1).length ≤
      ([['a','b'],['c','b']] : List (List Char)).length :=
  enumWords_count_le_vocab [['a','b'],['c','b']] [['a','c'],['b']] (by decide)

/-- Claim C10 (confirmed): `get_working_words` panics (returns `none` in
this embedding) exactly when the number of selected working words — the
frequency words found in the length-filtered dictionary set, truncated to
`top_n` unless `top_n = 0` — is smaller than 10, because its summary logging
unconditionally slices the first and last 10 entries of the result. -/
theorem getWorkingWords_panics_when_short (f s : List String) (n len : Nat) :
    getWorkingWords f s n len = none ↔ (selectedSpec f s n len).length < 10 := by
  simp only [getWorkingWords, pickWords_eq_selectedSpec]
  by_cases h : (selectedSpec f s n len).length < 10 <;> simp [h]
